import Mathlib

/-!
# Verification of the credential issuance and verification subsystem

Shallow embedding of `src/utils/api_key.py` (key generation, PBKDF2 hashing,
defensive verification) and `src/app/auth.py` (the request-time authentication
gate) of the `web-verify` repository.

Modelling conventions:
* Python `str` values are modelled as `List Char`; Python `bytes` as `List Nat`
  with every element `< 256`.
* Randomness sources (`secrets.token_bytes`, `secrets.token_urlsafe`) are
  explicit parameters of the embedded functions.
* Python exceptions are modelled with `Except PyErr`; a raised exception that
  is not caught propagates as `.error`.
-/

/-- Python exception classes that appear in the modelled code paths. -/
inductive PyErr where
  /-- `TypeError` -/
  | typeError
  /-- `ValueError` (also the superclass of `binascii.Error`) -/
  | valueError
  /-- `binascii.Error` raised by base64 decoding -/
  | binasciiError
  /-- any exception raised by `session.commit()` (persistence failure) -/
  | commitError
  /-- `sqlalchemy` `MultipleResultsFound` raised by `scalar_one_or_none` -/
  | multipleResultsError
deriving DecidableEq, Repr

/-! ## Base64 (`base64.urlsafe_b64encode` / `urlsafe_b64decode`) -/

/-- The URL-safe base64 alphabet used by `base64.urlsafe_b64encode`. -/
def b64Alphabet : List Char :=
  ['A','B','C','D','E','F','G','H','I','J','K','L','M','N','O','P','Q','R','S',
   'T','U','V','W','X','Y','Z','a','b','c','d','e','f','g','h','i','j','k','l',
   'm','n','o','p','q','r','s','t','u','v','w','x','y','z','0','1','2','3','4',
   '5','6','7','8','9','-','_']

/-- Character for a 6-bit value in the URL-safe alphabet. -/
def b64Char (v : Nat) : Char := b64Alphabet.getD v 'A'

/-- Index of a data character accepted by `urlsafe_b64decode`.  The decoder
translates `-`/`_` to `+`/`/` and then uses the standard alphabet, so the
standard characters `+` and `/` are also accepted as 62 and 63. -/
def b64CharIdx (c : Char) : Option Nat :=
  if c = '+' then some 62
  else if c = '/' then some 63
  else b64Alphabet.findIdx? (fun a => a = c)

/-- `base64.urlsafe_b64encode` on a byte string: 3-byte groups become 4
characters, a trailing group of 1 or 2 bytes is completed with `=` padding. -/
def b64EncodeGroups : List Nat → List Char
  | b1 :: b2 :: b3 :: rest =>
      let n := b1 * 65536 + b2 * 256 + b3
      b64Char (n / 262144) :: b64Char (n / 4096 % 64) :: b64Char (n / 64 % 64) ::
        b64Char (n % 64) :: b64EncodeGroups rest
  | [b1, b2] =>
      let n := b1 * 65536 + b2 * 256
      [b64Char (n / 262144), b64Char (n / 4096 % 64), b64Char (n / 64 % 64), '=']
  | [b1] =>
      let n := b1 * 65536
      [b64Char (n / 262144), b64Char (n / 4096 % 64), '=', '=']
  | [] => []

/-- `bytes.rstrip(b"=")`: remove every trailing `=`. -/
def stripTrailingEq : List Char → List Char
  | [] => []
  | c :: rest =>
      match stripTrailingEq rest with
      | [] => if c = '=' then [] else [c]
      | r => c :: r

/-- `_b64` from `src/utils/api_key.py`: URL-safe base64 without padding. -/
def pyB64 (data : List Nat) : List Char := stripTrailingEq (b64EncodeGroups data)

/-- Scan phase of `binascii.a2b_base64` in non-strict mode: non-alphabet
characters are discarded; a `=` found when the current quad already holds at
least two data characters terminates the scan (the remainder is ignored), a
`=` in an earlier quad position is discarded like any invalid character.
`k` is the number of data characters collected so far modulo 4. -/
def b64Scan (k : Nat) : List Char → List Nat
  | [] => []
  | c :: rest =>
      match b64CharIdx c with
      | some v => v :: b64Scan ((k + 1) % 4) rest
      | none =>
          if c = '=' ∧ 2 ≤ k then []
          else b64Scan k rest

/-- Decode phase of `binascii.a2b_base64`: full quads give 3 bytes, a final
group of 3 characters gives 2 bytes, of 2 characters 1 byte; a leftover single
character is an error (`binascii.Error`). -/
def b64DecodeVals : List Nat → Except PyErr (List Nat)
  | v1 :: v2 :: v3 :: v4 :: rest =>
      (b64DecodeVals rest).map fun tl =>
        let n := ((v1 * 64 + v2) * 64 + v3) * 64 + v4
        n / 65536 % 256 :: n / 256 % 256 :: n % 256 :: tl
  | [v1, v2, v3] =>
      let n := (v1 * 64 + v2) * 64 + v3
      .ok [n / 1024 % 256, n / 4 % 256]
  | [v1, v2] =>
      let n := v1 * 64 + v2
      .ok [n / 16 % 256]
  | [_] => .error .binasciiError
  | [] => .ok []

/-- `base64.urlsafe_b64decode` (non-strict `binascii.a2b_base64`). -/
def urlsafeB64decode (s : List Char) : Except PyErr (List Nat) :=
  b64DecodeVals (b64Scan 0 s)

/-- `_unb64` from `src/utils/api_key.py`: re-add `"=" * (-len(s) % 4)` of
padding, then decode. -/
def pyUnb64 (s : List Char) : Except PyErr (List Nat) :=
  urlsafeB64decode (s ++ List.replicate ((4 - s.length % 4) % 4) '=')

/-! ## Python `str(int)` and `int(str)` -/

/-- Decimal digit character, as produced by Python `str` on an `int`. -/
def digitChar : Nat → Char
  | 0 => '0' | 1 => '1' | 2 => '2' | 3 => '3' | 4 => '4'
  | 5 => '5' | 6 => '6' | 7 => '7' | 8 => '8' | 9 => '9'
  | _ => '0'

/-- Value of a decimal digit character. -/
def digitVal (c : Char) : Nat := c.toNat - 48

/-- Is `c` an ASCII decimal digit? -/
def isDigit (c : Char) : Bool := 48 ≤ c.toNat && c.toNat ≤ 57

/-- ASCII whitespace stripped by Python `int(str)`. -/
def isPySpace (c : Char) : Bool :=
  c = ' ' || c = '\t' || c = '\n' || c = '\x0b' || c = '\x0c' || c = '\r'

/-- Decimal digits of a natural number, most significant first
(`str` on a non-negative Python `int`). -/
def natDigits (n : Nat) : List Char :=
  if n < 10 then [digitChar n] else natDigits (n / 10) ++ [digitChar (n % 10)]
termination_by n
decreasing_by omega

/-- Python `str` on an `int` (used by the f-string in `hash_api_key`). -/
def intToString (i : Int) : List Char :=
  if i < 0 then '-' :: natDigits (-i).toNat else natDigits i.toNat

/-- Digit run of Python `int(str)` after the first digit: further digits, with
single underscores allowed between digits (CPython grammar, ASCII scope). -/
def parseDigitsGo (acc : Nat) : List Char → Option Nat
  | [] => some acc
  | c :: rest =>
      if isDigit c then parseDigitsGo (acc * 10 + digitVal c) rest
      else if c = '_' then
        match rest with
        | c2 :: rest2 =>
            if isDigit c2 then parseDigitsGo (acc * 10 + digitVal c2) rest2
            else none
        | [] => none
      else none

/-- Nonempty digit run starting with a digit. -/
def parseDigits? : List Char → Option Nat
  | [] => none
  | c :: rest => if isDigit c then parseDigitsGo (digitVal c) rest else none

/-- Strip leading and trailing ASCII whitespace (as `int(str)` does). -/
def pyStripSpace (s : List Char) : List Char :=
  ((s.dropWhile isPySpace).reverse.dropWhile isPySpace).reverse

/-- Python `int(str)` on ASCII input: optional surrounding whitespace, optional
sign, then a digit run; `none` models the `ValueError` it raises otherwise. -/
def pyParseInt (s : List Char) : Option Int :=
  match pyStripSpace s with
  | [] => none
  | c :: rest =>
      if c = '+' then (parseDigits? rest).map Int.ofNat
      else if c = '-' then (parseDigits? rest).map fun n => -(n : Int)
      else (parseDigits? (c :: rest)).map Int.ofNat

/-! ## `str.split("$", 3)` -/

/-- Split off everything up to the first `$`; `none` when no `$` occurs. -/
def breakDollar : List Char → List Char × Option (List Char)
  | [] => ([], none)
  | c :: rest =>
      if c = '$' then ([], some rest)
      else
        let (a, b) := breakDollar rest
        (c :: a, b)

/-- `s.split("$", n)`: at most `n` splits, the remainder is the last field. -/
def splitDollar : Nat → List Char → List (List Char)
  | 0, s => [s]
  | n + 1, s =>
      match breakDollar s with
      | (a, none) => [a]
      | (a, some rest) => a :: splitDollar n rest

/-! ## SHA-256, HMAC-SHA256, PBKDF2 (`hashlib.pbkdf2_hmac("sha256", ...)`) -/

/-- Reduce a word to 32 bits. -/
def w32 (n : Nat) : Nat := n % 4294967296

/-- 32-bit right rotation. -/
def rotr32 (n x : Nat) : Nat := w32 ((x >>> n) ||| (x <<< (32 - n)))

/-- SHA-256 big sigma 0. -/
def sumSigA (x : Nat) : Nat := rotr32 2 x ^^^ rotr32 13 x ^^^ rotr32 22 x

/-- SHA-256 big sigma 1. -/
def sumSigE (x : Nat) : Nat := rotr32 6 x ^^^ rotr32 11 x ^^^ rotr32 25 x

/-- SHA-256 small sigma 0. -/
def mixSigLo (x : Nat) : Nat := rotr32 7 x ^^^ rotr32 18 x ^^^ (x >>> 3)

/-- SHA-256 small sigma 1. -/
def mixSigHi (x : Nat) : Nat := rotr32 17 x ^^^ rotr32 19 x ^^^ (x >>> 10)

/-- SHA-256 choose function. -/
def shaCh (x y z : Nat) : Nat := (x &&& y) ^^^ ((x ^^^ 4294967295) &&& z)

/-- SHA-256 majority function. -/
def shaMaj (x y z : Nat) : Nat := (x &&& y) ^^^ (x &&& z) ^^^ (y &&& z)

/-- SHA-256 working state: eight 32-bit words. -/
structure Sha256St where
  a : Nat
  b : Nat
  c : Nat
  d : Nat
  e : Nat
  f : Nat
  g : Nat
  h : Nat
deriving DecidableEq, Repr

/-- SHA-256 round constants. -/
def sha256K : List Nat :=
  [1116352408, 1899447441, 3049323471, 3921009573, 961987163,
   1508970993, 2453635748, 2870763221, 3624381080, 310598401,
   607225278, 1426881987, 1925078388, 2162078206, 2614888103,
   3248222580, 3835390401, 4022224774, 264347078, 604807628,
   770255983, 1249150122, 1555081692, 1996064986, 2554220882,
   2821834349, 2952996808, 3210313671, 3336571891, 3584528711,
   113926993, 338241895, 666307205, 773529912, 1294757372,
   1396182291, 1695183700, 1986661051, 2177026350, 2456956037,
   2730485921, 2820302411, 3259730800, 3345764771, 3516065817,
   3600352804, 4094571909, 275423344, 430227734, 506948616,
   659060556, 883997877, 958139571, 1322822218, 1537002063,
   1747873779, 1955562222, 2024104815, 2227730452, 2361852424,
   2428436474, 2756734187, 3204031479, 3329325298]

/-- SHA-256 initial state. -/
def sha256Init : Sha256St :=
  ⟨1779033703, 3144134277, 1013904242, 2773480762,
   1359893119, 2600822924, 528734635, 1541459225⟩

/-- One SHA-256 round for a `(constant, scheduled word)` pair. -/
def sha256Round (s : Sha256St) (kw : Nat × Nat) : Sha256St :=
  let t1 := w32 (s.h + sumSigE s.e + shaCh s.e s.f s.g + kw.1 + kw.2)
  let t2 := w32 (sumSigA s.a + shaMaj s.a s.b s.c)
  ⟨w32 (t1 + t2), s.a, s.b, s.c, w32 (s.d + t1), s.e, s.f, s.g⟩

/-- Extend the 16 message words by `n` additional scheduled words. -/
def sha256Extend : Nat → List Nat → List Nat
  | 0, ws => ws
  | n + 1, ws =>
      let len := ws.length
      let nw := w32 (mixSigHi (ws.getD (len - 2) 0) + ws.getD (len - 7) 0 +
                     mixSigLo (ws.getD (len - 15) 0) + ws.getD (len - 16) 0)
      sha256Extend n (ws ++ [nw])

/-- Compress one 16-word block into the state. -/
def sha256Compress (st : Sha256St) (block : List Nat) : Sha256St :=
  let ws := sha256Extend 48 block
  let r := (sha256K.zip ws).foldl sha256Round st
  ⟨w32 (st.a + r.a), w32 (st.b + r.b), w32 (st.c + r.c), w32 (st.d + r.d),
   w32 (st.e + r.e), w32 (st.f + r.f), w32 (st.g + r.g), w32 (st.h + r.h)⟩

/-- Big-endian 32-bit words from a byte list (length a multiple of 4). -/
def bytesToWords32 : List Nat → List Nat
  | b1 :: b2 :: b3 :: b4 :: rest =>
      (((b1 * 256 + b2) * 256 + b3) * 256 + b4) :: bytesToWords32 rest
  | _ => []

/-- Fold all 16-word blocks of a message into the state. -/
def sha256Blocks : List Nat → Sha256St → Sha256St
  | w0 :: w1 :: w2 :: w3 :: w4 :: w5 :: w6 :: w7 ::
    w8 :: w9 :: w10 :: w11 :: w12 :: w13 :: w14 :: w15 :: rest, st =>
      sha256Blocks rest
        (sha256Compress st [w0, w1, w2, w3, w4, w5, w6, w7,
                            w8, w9, w10, w11, w12, w13, w14, w15])
  | _, st => st

/-- Big-endian 8-byte encoding of a (bit-) length. -/
def int64be (n : Nat) : List Nat :=
  [n / 72057594037927936 % 256, n / 281474976710656 % 256,
   n / 1099511627776 % 256, n / 4294967296 % 256,
   n / 16777216 % 256, n / 65536 % 256, n / 256 % 256, n % 256]

/-- SHA-256 message padding: `0x80`, zeros, 64-bit big-endian bit length. -/
def sha256Pad (msg : List Nat) : List Nat :=
  msg ++ 0x80 :: List.replicate ((119 - msg.length % 64) % 64) 0 ++
    int64be (msg.length * 8)

/-- Big-endian bytes of a 32-bit word. -/
def wordBytes (w : Nat) : List Nat :=
  [w / 16777216 % 256, w / 65536 % 256, w / 256 % 256, w % 256]

/-- SHA-256 digest (32 bytes) of a byte string. -/
def sha256 (msg : List Nat) : List Nat :=
  let st := sha256Blocks (bytesToWords32 (sha256Pad msg)) sha256Init
  wordBytes st.a ++ wordBytes st.b ++ wordBytes st.c ++ wordBytes st.d ++
  wordBytes st.e ++ wordBytes st.f ++ wordBytes st.g ++ wordBytes st.h

/-- HMAC-SHA256. -/
def hmacSha256 (key msg : List Nat) : List Nat :=
  let k0 := if 64 < key.length then sha256 key else key
  let k := k0 ++ List.replicate (64 - k0.length) 0
  sha256 ((k.map fun b => b ^^^ 0x5c) ++
          sha256 ((k.map fun b => b ^^^ 0x36) ++ msg))

/-- Big-endian 4-byte block index of PBKDF2. -/
def int32be (n : Nat) : List Nat :=
  [n / 16777216 % 256, n / 65536 % 256, n / 256 % 256, n % 256]

/-- Iterate the PBKDF2 `U` chain `k` more times, xor-accumulating into `acc`. -/
def pbkdf2Go (pw : List Nat) : Nat → List Nat → List Nat → List Nat
  | 0, _, acc => acc
  | k + 1, u, acc =>
      let u2 := hmacSha256 pw u
      pbkdf2Go pw k u2 (List.zipWith Nat.xor acc u2)

/-- PBKDF2 block `T_i`. -/
def pbkdf2Block (pw salt : List Nat) (iters i : Nat) : List Nat :=
  let u1 := hmacSha256 pw (salt ++ int32be i)
  pbkdf2Go pw (iters - 1) u1 u1

/-- PBKDF2-HMAC-SHA256 core derivation (iterations and key length already
validated). -/
def pbkdf2Core (pw salt : List Nat) (iters dklen : Nat) : List Nat :=
  (((List.range ((dklen + 31) / 32)).map fun j => pbkdf2Block pw salt iters (j + 1)).flatten).take dklen

/-- `hashlib.pbkdf2_hmac("sha256", password, salt, iterations, dklen)`:
CPython raises `ValueError` when `iterations < 1` ("iteration value must be
greater than 0") or when `dklen < 1` ("key length must be greater than 0"). -/
def pbkdf2HmacSha256 (password salt : List Nat) (iterations : Int) (dklen : Nat) :
    Except PyErr (List Nat) :=
  if iterations < 1 then .error .valueError
  else if dklen < 1 then .error .valueError
  else .ok (pbkdf2Core password salt iterations.toNat dklen)

/-! ## UTF-8 encoding (`str.encode("utf-8")`) -/

/-- UTF-8 bytes of one Unicode scalar value. -/
def utf8EncodeChar (c : Char) : List Nat :=
  let n := c.toNat
  if n < 128 then [n]
  else if n < 2048 then [192 + n / 64, 128 + n % 64]
  else if n < 65536 then [224 + n / 4096, 128 + n / 64 % 64, 128 + n % 64]
  else [240 + n / 262144, 128 + n / 4096 % 64, 128 + n / 64 % 64, 128 + n % 64]

/-- `str.encode("utf-8")`. -/
def utf8Encode (s : List Char) : List Nat := (s.map utf8EncodeChar).flatten

/-! ## `src/utils/api_key.py` -/

/-- `SALT_SIZE` from `src/utils/api_key.py`. -/
def SALT_SIZE : Nat := 16

/-- `PBKDF2_DKLEN` from `src/utils/api_key.py`. -/
def PBKDF2_DKLEN : Nat := 32

/-- `DEFAULT_ITERATIONS` from `src/utils/api_key.py`. -/
def DEFAULT_ITERATIONS : Int := 100000

/-- Length of `secrets.token_urlsafe(n)`: the URL-safe base64 text of `n`
random bytes with the padding stripped, i.e. `⌈4n/3⌉` characters. -/
def tokenUrlsafeLen (n : Nat) : Nat := (4 * n + 2) / 3

/-- The `while len(token) < length: token += secrets.token_urlsafe(nbytes)`
loop of `generate_api_key`.  `draw` is the next call number of the randomness
source.  The source loop terminates because every `token_urlsafe` draw is
nonempty; `fuel` makes the recursion structural and is chosen large enough
that it is never exhausted under that assumption. -/
def growToken (target : Nat) (draws : Nat → List Char) :
    Nat → Nat → List Char → List Char
  | 0, _, tok => tok
  | fuel + 1, draw, tok =>
      if tok.length < target then
        growToken target draws fuel (draw + 1) (tok ++ draws draw)
      else tok

/-- `generate_api_key` from `src/utils/api_key.py`.  `draws nbytes i` models
the `i`-th call of `secrets.token_urlsafe(nbytes)`.  The `isinstance(length,
int)` guard is discharged by typing; `math.ceil(length * 3 / 4)` is modelled
by exact ceiling division. -/
def generate_api_key (length : Int) (draws : Nat → Nat → List Char) :
    Except PyErr (List Char) :=
  if length < 8 then .error .valueError
  else
    let L := length.toNat
    let nbytes := (3 * L + 3) / 4
    let token := growToken L (draws nbytes) L 1 (draws nbytes 0)
    .ok ("sk_".toList ++ token.take L)

/-- `hash_api_key` from `src/utils/api_key.py`.  `salt` models the
`secrets.token_bytes(SALT_SIZE)` draw (16 bytes, each `< 256`); the
`isinstance` guards are discharged by typing.  An exception raised by
`hashlib.pbkdf2_hmac` (e.g. `iterations < 1`) propagates to the caller. -/
def hash_api_key (apiKey : List Char) (iterations : Int) (method : List Char)
    (salt : List Nat) : Except PyErr (List Char) :=
  if method ≠ "pbkdf2".toList then .error .valueError
  else
    match pbkdf2HmacSha256 (utf8Encode apiKey) salt iterations PBKDF2_DKLEN with
    | .error e => .error e
    | .ok dk =>
        .ok ("pbkdf2_sha256".toList ++ '$' :: intToString iterations ++
             '$' :: pyB64 salt ++ '$' :: pyB64 dk)

/-- `hmac.compare_digest` on byte strings: functionally, equality of the two
byte sequences (its timing behaviour is outside this embedding). -/
def compare_digest (a b : List Nat) : Bool := a == b

/-- `verify_api_key` from `src/utils/api_key.py`.  The `try` block covers the
split, the `int(...)` parse and both base64 decodes — their `ValueError` /
`TypeError` / `binascii.Error` are normalised to `False`.  The
`hashlib.pbkdf2_hmac` call sits *outside* the `try`, so an exception it raises
(for example for a parsed iteration count `< 1`) propagates to the caller. -/
def verify_api_key (apiKey stored : List Char) : Except PyErr Bool :=
  if stored = [] ∨ ¬ '$' ∈ stored then .ok false
  else
    match splitDollar 3 stored with
    | [algo, iterS, saltB, dkB] =>
        if algo ≠ "pbkdf2_sha256".toList then .ok false
        else
          match pyParseInt iterS with
          | none => .ok false
          | some iterations =>
              match pyUnb64 saltB with
              | .error _ => .ok false
              | .ok salt =>
                  match pyUnb64 dkB with
                  | .error _ => .ok false
                  | .ok expected =>
                      match pbkdf2HmacSha256 (utf8Encode apiKey) salt
                              iterations expected.length with
                      | .error e => .error e
                      | .ok derived => .ok (compare_digest derived expected)
    | _ => .ok false

/-! ## `src/app/auth.py` (the AuthGate protocol) -/

/-- The parts of an inbound request that `require_api_key` inspects. -/
structure Request where
  path : List Char
  method : List Char
  /-- the `X-API-Key` header, `none` when absent -/
  apiKey : Option (List Char)
  /-- the `X-API-Key-Id` header, `none` when absent -/
  apiKeyId : Option (List Char)
deriving DecidableEq, Repr

/-- A persisted credential record as `require_api_key` reads it. -/
structure APIKeyRow where
  id : List Char
  hash : List Char
  active : Bool
deriving DecidableEq, Repr

/-- The credential store: the rows the SELECTs return (in return order) and
whether `session.commit()` succeeds (`commitOk = false` models a persistence
error raised while updating `last_used_at`). -/
structure Store where
  rows : List APIKeyRow
  commitOk : Bool
deriving DecidableEq, Repr

/-- Terminal outcome of `require_api_key` for one request. -/
inductive Outcome where
  /-- fall through (health check or CORS preflight) -/
  | passThrough
  /-- a JSON error response with its HTTP status and `error` field -/
  | response (status : Nat) (error : List Char)
  /-- request admitted, `g.api_key_id` bound to the matched record id -/
  | grant (keyId : List Char)
  /-- an uncaught exception propagates out of `require_api_key` -/
  | exn (e : PyErr)
deriving DecidableEq, Repr

/-- Python truthiness of an optional header: `None` and `""` are falsy. -/
def truthyHeader : Option (List Char) → Option (List Char)
  | none => none
  | some [] => none
  | some s => some s

/-- The `for row in rows:` loop of the no-hint path: each candidate is tried
under `try: ... except Exception: continue`, so a verification exception *or*
a failed `commit()` after a successful verification moves on to the next row;
exhausting the rows yields 401 unauthorized. -/
def scanRows (provided : List Char) (commitOk : Bool) : List APIKeyRow → Outcome
  | [] => .response 401 "unauthorized".toList
  | r :: rest =>
      match verify_api_key provided r.hash with
      | .ok true =>
          if commitOk then .grant r.id
          else scanRows provided commitOk rest
      | _ => scanRows provided commitOk rest

/-- `require_api_key` from `src/app/auth.py`.  `dbAvailable` is the
`DB_AVAILABLE` app-config flag.  The id-hinted path runs without a `try`, so a
verification exception or a failed `commit()` propagates; `scalar_one_or_none`
raises when more than one row matches.  Response bodies are modelled by their
`error` field. -/
def require_api_key (req : Request) (dbAvailable : Bool) (store : Store) :
    Outcome :=
  if req.path = "/health".toList ∨ req.method = "OPTIONS".toList then
    .passThrough
  else if dbAvailable = false then
    .response 503 "service_unavailable".toList
  else
    match truthyHeader req.apiKey with
    | none => .response 401 "missing api key".toList
    | some provided =>
        match truthyHeader req.apiKeyId with
        | some kid =>
            match store.rows.filter fun r => r.id == kid && r.active with
            | [] => .response 401 "unauthorized".toList
            | [row] =>
                match verify_api_key provided row.hash with
                | .error e => .exn e
                | .ok true =>
                    if store.commitOk then .grant row.id else .exn .commitError
                | .ok false => .response 401 "unauthorized".toList
            | _ => .exn .multipleResultsError
        | none => scanRows provided store.commitOk (store.rows.filter fun r => r.active)

/-! ## Base64 round-trip lemmas -/

/-- The 6-bit values produced by encoding a byte string. -/
def b64Vals : List Nat → List Nat
  | b1 :: b2 :: b3 :: rest =>
      let n := b1 * 65536 + b2 * 256 + b3
      n / 262144 :: n / 4096 % 64 :: n / 64 % 64 :: n % 64 :: b64Vals rest
  | [b1, b2] =>
      let n := b1 * 65536 + b2 * 256
      [n / 262144, n / 4096 % 64, n / 64 % 64]
  | [b1] =>
      let n := b1 * 65536
      [n / 262144, n / 4096 % 64]
  | [] => []

/-- The unpadded encoding of a byte string. -/
def b64NoPad : List Nat → List Char
  | b1 :: b2 :: b3 :: rest =>
      let n := b1 * 65536 + b2 * 256 + b3
      b64Char (n / 262144) :: b64Char (n / 4096 % 64) :: b64Char (n / 64 % 64) ::
        b64Char (n % 64) :: b64NoPad rest
  | [b1, b2] =>
      let n := b1 * 65536 + b2 * 256
      [b64Char (n / 262144), b64Char (n / 4096 % 64), b64Char (n / 64 % 64)]
  | [b1] =>
      let n := b1 * 65536
      [b64Char (n / 262144), b64Char (n / 4096 % 64)]
  | [] => []

theorem b64CharIdx_b64Char : ∀ v, v < 64 → b64CharIdx (b64Char v) = some v := by
  decide

theorem b64Char_ne_eqChar : ∀ v, v < 64 → b64Char v ≠ '=' := by decide

theorem b64Char_ne_dollar : ∀ v, v < 64 → b64Char v ≠ '$' := by decide

theorem stripTrailingEq_append (a b : List Char) (hb : stripTrailingEq b ≠ []) :
    stripTrailingEq (a ++ b) = a ++ stripTrailingEq b := by
  induction a with
  | nil => rfl
  | cons x a' ih =>
      rw [List.cons_append]
      rw [stripTrailingEq, ih]
      cases h : a' ++ stripTrailingEq b with
      | nil =>
          rcases List.append_eq_nil.mp h with ⟨_, h2⟩
          exact absurd h2 hb
      | cons y ys => simp [← h]

theorem stripTrailingEq_all_ne (a : List Char) (h : ∀ c ∈ a, c ≠ '=') :
    stripTrailingEq a = a := by
  induction a with
  | nil => rfl
  | cons x a' ih =>
      rw [stripTrailingEq, ih fun c hc => h c (List.mem_cons_of_mem _ hc)]
      cases a' with
      | nil => simp [h x (List.mem_cons_self _ _)]
      | cons y ys => simp

theorem b64NoPad_ne_nil (bs : List Nat) (h : bs ≠ []) : b64NoPad bs ≠ [] := by
  match bs with
  | b1 :: b2 :: b3 :: rest => simp [b64NoPad]
  | [b1, b2] => simp [b64NoPad]
  | [b1] => simp [b64NoPad]
  | [] => exact absurd rfl h

theorem stripTrailingEq_encode (bs : List Nat) (hb : ∀ b ∈ bs, b < 256) :
    stripTrailingEq (b64EncodeGroups bs) = b64NoPad bs := by
  induction bs using b64EncodeGroups.induct with
  | case1 b1 b2 b3 rest ih =>
      have h1 : b1 < 256 := hb b1 (by simp)
      have h2 : b2 < 256 := hb b2 (by simp)
      have h3 : b3 < 256 := hb b3 (by simp)
      have hrest : ∀ b ∈ rest, b < 256 := fun b h => hb b (by simp [h])
      rw [b64EncodeGroups, b64NoPad]
      by_cases hr : rest = []
      · subst hr
        apply stripTrailingEq_all_ne
        intro c hc
        simp only [b64EncodeGroups, List.mem_cons, List.not_mem_nil, or_false] at hc
        rcases hc with h | h | h | h <;> subst h <;>
          exact b64Char_ne_eqChar _ (by omega)
      · rw [show (b64Char ((b1 * 65536 + b2 * 256 + b3) / 262144) ::
              b64Char ((b1 * 65536 + b2 * 256 + b3) / 4096 % 64) ::
              b64Char ((b1 * 65536 + b2 * 256 + b3) / 64 % 64) ::
              b64Char ((b1 * 65536 + b2 * 256 + b3) % 64) ::
              b64EncodeGroups rest) =
            [b64Char ((b1 * 65536 + b2 * 256 + b3) / 262144),
             b64Char ((b1 * 65536 + b2 * 256 + b3) / 4096 % 64),
             b64Char ((b1 * 65536 + b2 * 256 + b3) / 64 % 64),
             b64Char ((b1 * 65536 + b2 * 256 + b3) % 64)] ++ b64EncodeGroups rest
          from rfl]
        rw [stripTrailingEq_append _ _ (by
          rw [ih hrest]
          exact b64NoPad_ne_nil rest hr)]
        rw [ih hrest]
        rfl
  | case2 b1 b2 =>
      have h1 : b1 < 256 := hb b1 (by simp)
      have h2 : b2 < 256 := hb b2 (by simp)
      rw [b64EncodeGroups, b64NoPad]
      have e1 := b64Char_ne_eqChar ((b1 * 65536 + b2 * 256) / 262144) (by omega)
      have e2 := b64Char_ne_eqChar ((b1 * 65536 + b2 * 256) / 4096 % 64) (by omega)
      have e3 := b64Char_ne_eqChar ((b1 * 65536 + b2 * 256) / 64 % 64) (by omega)
      simp [stripTrailingEq, e1, e2, e3]
  | case3 b1 =>
      have h1 : b1 < 256 := hb b1 (by simp)
      rw [b64EncodeGroups, b64NoPad]
      have e1 := b64Char_ne_eqChar ((b1 * 65536) / 262144) (by omega)
      have e2 := b64Char_ne_eqChar ((b1 * 65536) / 4096 % 64) (by omega)
      simp [stripTrailingEq, e1, e2]
  | case4 => rfl

theorem pad_b64NoPad (bs : List Nat) :
    b64NoPad bs ++ List.replicate ((4 - (b64NoPad bs).length % 4) % 4) '=' =
      b64EncodeGroups bs := by
  induction bs using b64EncodeGroups.induct with
  | case1 b1 b2 b3 rest ih =>
      rw [b64NoPad, b64EncodeGroups]
      simp only [List.length_cons]
      rw [show (4 - ((b64NoPad rest).length + 1 + 1 + 1 + 1) % 4) % 4 =
            (4 - (b64NoPad rest).length % 4) % 4 by omega]
      simp only [List.cons_append]
      rw [ih]
  | case2 b1 b2 => rfl
  | case3 b1 => rfl
  | case4 => rfl

theorem b64CharIdx_eqChar : b64CharIdx '=' = none := by decide

theorem b64Scan_encode (bs : List Nat) (hb : ∀ b ∈ bs, b < 256) :
    b64Scan 0 (b64EncodeGroups bs) = b64Vals bs := by
  induction bs using b64EncodeGroups.induct with
  | case1 b1 b2 b3 rest ih =>
      have h1 : b1 < 256 := hb b1 (by simp)
      have h2 : b2 < 256 := hb b2 (by simp)
      have h3 : b3 < 256 := hb b3 (by simp)
      have hrest : ∀ b ∈ rest, b < 256 := fun b h => hb b (by simp [h])
      rw [b64EncodeGroups, b64Vals]
      have e1 := b64CharIdx_b64Char ((b1 * 65536 + b2 * 256 + b3) / 262144)
        (by omega)
      have e2 := b64CharIdx_b64Char ((b1 * 65536 + b2 * 256 + b3) / 4096 % 64)
        (by omega)
      have e3 := b64CharIdx_b64Char ((b1 * 65536 + b2 * 256 + b3) / 64 % 64)
        (by omega)
      have e4 := b64CharIdx_b64Char ((b1 * 65536 + b2 * 256 + b3) % 64)
        (by omega)
      simp only [b64Scan, e1, e2, e3, e4]
      norm_num
      exact ih hrest
  | case2 b1 b2 =>
      have h1 : b1 < 256 := hb b1 (by simp)
      have h2 : b2 < 256 := hb b2 (by simp)
      rw [b64EncodeGroups, b64Vals]
      have e1 := b64CharIdx_b64Char ((b1 * 65536 + b2 * 256) / 262144) (by omega)
      have e2 := b64CharIdx_b64Char ((b1 * 65536 + b2 * 256) / 4096 % 64) (by omega)
      have e3 := b64CharIdx_b64Char ((b1 * 65536 + b2 * 256) / 64 % 64) (by omega)
      simp only [b64Scan, e1, e2, e3, b64CharIdx_eqChar]
      norm_num
  | case3 b1 =>
      have h1 : b1 < 256 := hb b1 (by simp)
      rw [b64EncodeGroups, b64Vals]
      have e1 := b64CharIdx_b64Char ((b1 * 65536) / 262144) (by omega)
      have e2 := b64CharIdx_b64Char ((b1 * 65536) / 4096 % 64) (by omega)
      simp only [b64Scan, e1, e2, b64CharIdx_eqChar]
      norm_num
  | case4 => rfl

theorem b64DecodeVals_vals (bs : List Nat) (hb : ∀ b ∈ bs, b < 256) :
    b64DecodeVals (b64Vals bs) = .ok bs := by
  induction bs using b64Vals.induct with
  | case1 b1 b2 b3 rest ih =>
      have h1 : b1 < 256 := hb b1 (by simp)
      have h2 : b2 < 256 := hb b2 (by simp)
      have h3 : b3 < 256 := hb b3 (by simp)
      have hrest : ∀ b ∈ rest, b < 256 := fun b h => hb b (by simp [h])
      rw [b64Vals]
      simp only [b64DecodeVals, ih hrest, Except.map]
      simp only [Except.ok.injEq, List.cons.injEq]
      refine ⟨by omega, by omega, by omega, trivial⟩
  | case2 b1 b2 =>
      have h1 : b1 < 256 := hb b1 (by simp)
      have h2 : b2 < 256 := hb b2 (by simp)
      rw [b64Vals]
      simp only [b64DecodeVals, Except.ok.injEq, List.cons.injEq]
      refine ⟨by omega, by omega, trivial⟩
  | case3 b1 =>
      have h1 : b1 < 256 := hb b1 (by simp)
      rw [b64Vals]
      simp only [b64DecodeVals, Except.ok.injEq, List.cons.injEq]
      refine ⟨by omega, trivial⟩
  | case4 => rfl

/-- `_unb64` inverts `_b64` on byte strings. -/
theorem pyUnb64_pyB64 (bs : List Nat) (hb : ∀ b ∈ bs, b < 256) :
    pyUnb64 (pyB64 bs) = .ok bs := by
  unfold pyUnb64 pyB64 urlsafeB64decode
  rw [stripTrailingEq_encode bs hb, pad_b64NoPad bs, b64Scan_encode bs hb,
      b64DecodeVals_vals bs hb]

theorem mem_b64NoPad (bs : List Nat) (hb : ∀ b ∈ bs, b < 256) :
    ∀ c ∈ b64NoPad bs, ∃ v, v < 64 ∧ c = b64Char v := by
  induction bs using b64NoPad.induct with
  | case1 b1 b2 b3 rest ih =>
      have h1 : b1 < 256 := hb b1 (by simp)
      have h2 : b2 < 256 := hb b2 (by simp)
      have h3 : b3 < 256 := hb b3 (by simp)
      have hrest : ∀ b ∈ rest, b < 256 := fun b h => hb b (by simp [h])
      intro c hc
      rw [b64NoPad] at hc
      simp only [List.mem_cons] at hc
      rcases hc with h | h | h | h | h
      · exact ⟨_, by omega, h⟩
      · exact ⟨_, by omega, h⟩
      · exact ⟨_, by omega, h⟩
      · exact ⟨_, by omega, h⟩
      · exact ih hrest c h
  | case2 b1 b2 =>
      have h1 : b1 < 256 := hb b1 (by simp)
      have h2 : b2 < 256 := hb b2 (by simp)
      intro c hc
      rw [b64NoPad] at hc
      simp only [List.mem_cons, List.not_mem_nil, or_false] at hc
      rcases hc with h | h | h
      · exact ⟨_, by omega, h⟩
      · exact ⟨_, by omega, h⟩
      · exact ⟨_, by omega, h⟩
  | case3 b1 =>
      have h1 : b1 < 256 := hb b1 (by simp)
      intro c hc
      rw [b64NoPad] at hc
      simp only [List.mem_cons, List.not_mem_nil, or_false] at hc
      rcases hc with h | h
      · exact ⟨_, by omega, h⟩
      · exact ⟨_, by omega, h⟩
  | case4 => intro c hc; simp [b64NoPad] at hc

theorem pyB64_chars (bs : List Nat) (hb : ∀ b ∈ bs, b < 256) :
    ∀ c ∈ pyB64 bs, ∃ v, v < 64 ∧ c = b64Char v := by
  rw [pyB64, stripTrailingEq_encode bs hb]
  exact mem_b64NoPad bs hb

theorem pyB64_no_dollar (bs : List Nat) (hb : ∀ b ∈ bs, b < 256) :
    ¬ '$' ∈ pyB64 bs := by
  intro h
  obtain ⟨v, hv, hc⟩ := pyB64_chars bs hb '$' h
  exact b64Char_ne_dollar v hv hc.symm

theorem pyB64_no_eqChar (bs : List Nat) (hb : ∀ b ∈ bs, b < 256) :
    ¬ '=' ∈ pyB64 bs := by
  intro h
  obtain ⟨v, hv, hc⟩ := pyB64_chars bs hb '=' h
  exact b64Char_ne_eqChar v hv hc.symm

/-! ## Decimal print/parse lemmas -/

theorem isDigit_digitChar : ∀ m, m < 10 → isDigit (digitChar m) = true := by decide

theorem digitVal_digitChar : ∀ m, m < 10 → digitVal (digitChar m) = m := by decide

theorem natDigits_ne_nil (n : Nat) : natDigits n ≠ [] := by
  rw [natDigits]
  split
  · simp
  · simp

theorem natDigits_all_digits (n : Nat) : ∀ c ∈ natDigits n, isDigit c = true := by
  induction n using natDigits.induct with
  | case1 n h =>
      rw [natDigits, if_pos h]
      intro c hc
      simp only [List.mem_singleton] at hc
      subst hc
      exact isDigit_digitChar n h
  | case2 n h ih =>
      rw [natDigits, if_neg h]
      intro c hc
      rcases List.mem_append.mp hc with h1 | h1
      · exact ih c h1
      · simp only [List.mem_singleton] at h1
        subst h1
        exact isDigit_digitChar _ (Nat.mod_lt _ (by norm_num))

theorem isDigit_toNat {c : Char} (h : isDigit c = true) :
    48 ≤ c.toNat ∧ c.toNat ≤ 57 := by
  simpa [isDigit, Bool.and_eq_true, decide_eq_true_eq] using h

theorem isDigit_ne_dollar {c : Char} (h : isDigit c = true) : c ≠ '$' := by
  intro he
  subst he
  simp [isDigit] at h

theorem isDigit_not_space {c : Char} (h : isDigit c = true) :
    isPySpace c = false := by
  obtain ⟨h1, h2⟩ := isDigit_toNat h
  simp only [isPySpace, Bool.or_eq_false_iff, decide_eq_false_iff_not]
  refine ⟨⟨⟨⟨⟨?_, ?_⟩, ?_⟩, ?_⟩, ?_⟩, ?_⟩ <;>
    · intro he
      subst he
      exact absurd h (by decide)

theorem dropWhile_eq_self_of_false {p : Char → Bool} {l : List Char}
    (h : ∀ c ∈ l, p c = false) : l.dropWhile p = l := by
  cases l with
  | nil => rfl
  | cons x xs => simp [List.dropWhile_cons, h x (List.mem_cons_self _ _)]

theorem pyStripSpace_eq_self {l : List Char}
    (h : ∀ c ∈ l, isPySpace c = false) : pyStripSpace l = l := by
  unfold pyStripSpace
  rw [dropWhile_eq_self_of_false h,
      dropWhile_eq_self_of_false (fun c hc => h c (List.mem_reverse.mp hc)),
      List.reverse_reverse]

theorem parseDigitsGo_all_digits (xs : List Char)
    (h : ∀ c ∈ xs, isDigit c = true) :
    ∀ acc, parseDigitsGo acc xs =
      some (xs.foldl (fun a c => a * 10 + digitVal c) acc) := by
  induction xs with
  | nil => intro acc; rfl
  | cons x xs' ih =>
      intro acc
      rw [parseDigitsGo.eq_def]
      simp only [h x (List.mem_cons_self _ _), if_true]
      rw [ih (fun c hc => h c (List.mem_cons_of_mem _ hc))]
      rfl

theorem foldl_digitVal_natDigits (n : Nat) :
    ∀ acc, (natDigits n).foldl (fun a c => a * 10 + digitVal c) acc =
      acc * 10 ^ (natDigits n).length + n := by
  induction n using natDigits.induct with
  | case1 n h =>
      intro acc
      rw [natDigits, if_pos h]
      simp [List.foldl, digitVal_digitChar n h]
  | case2 n h ih =>
      intro acc
      rw [natDigits, if_neg h]
      rw [List.foldl_append, ih, List.length_append]
      simp only [List.length_singleton, List.foldl_cons, List.foldl_nil]
      rw [digitVal_digitChar _ (Nat.mod_lt _ (by norm_num)), pow_succ, ← mul_assoc]
      generalize acc * 10 ^ (natDigits (n / 10)).length = Y
      omega

theorem pyParseInt_intToString (I : Int) (h : 0 ≤ I) :
    pyParseInt (intToString I) = some I := by
  rw [intToString, if_neg (by omega)]
  have hdig := natDigits_all_digits I.toNat
  rw [pyParseInt]
  rw [pyStripSpace_eq_self (fun c hc => isDigit_not_space (hdig c hc))]
  cases ht : natDigits I.toNat with
  | nil => exact absurd ht (natDigits_ne_nil _)
  | cons c rest =>
      have hc : isDigit c = true := by
        apply hdig
        rw [ht]
        exact List.mem_cons_self _ _
      have hplus : c ≠ '+' := by
        intro he
        subst he
        exact absurd hc (by decide)
      have hminus : c ≠ '-' := by
        intro he
        subst he
        exact absurd hc (by decide)
      simp only [if_neg hplus, if_neg hminus]
      rw [parseDigits?, if_pos hc]
      rw [parseDigitsGo_all_digits rest
        (fun d hd => hdig d (ht ▸ List.mem_cons_of_mem _ hd))]
      have := foldl_digitVal_natDigits I.toNat 0
      rw [ht] at this
      simp only [List.foldl] at this
      rw [show (0 : Nat) * 10 + digitVal c = digitVal c by omega] at this
      rw [this]
      simp [Int.toNat_of_nonneg h]

/-! ## Split lemmas -/

theorem breakDollar_append (x y : List Char) (hx : ¬ '$' ∈ x) :
    breakDollar (x ++ '$' :: y) = (x, some y) := by
  induction x with
  | nil => simp [breakDollar]
  | cons c x' ih =>
      have hc : c ≠ '$' := fun he => hx (he ▸ List.mem_cons_self _ _)
      have hx' : ¬ '$' ∈ x' := fun hm => hx (List.mem_cons_of_mem _ hm)
      simp [breakDollar, hc, ih hx']

theorem splitDollar_step (n : Nat) (x y : List Char) (hx : ¬ '$' ∈ x) :
    splitDollar (n + 1) (x ++ '$' :: y) = x :: splitDollar n y := by
  rw [show splitDollar (n + 1) (x ++ '$' :: y) =
        (match breakDollar (x ++ '$' :: y) with
         | (a, none) => [a]
         | (a, some rest) => a :: splitDollar n rest) from rfl]
  rw [breakDollar_append _ _ hx]

theorem splitDollar_four (tag d s k : List Char) (htag : ¬ '$' ∈ tag)
    (hd : ¬ '$' ∈ d) (hs : ¬ '$' ∈ s) :
    splitDollar 3 (tag ++ '$' :: (d ++ '$' :: (s ++ '$' :: k))) =
      [tag, d, s, k] := by
  rw [show (3 : Nat) = 2 + 1 from rfl, splitDollar_step _ _ _ htag]
  rw [show (2 : Nat) = 1 + 1 from rfl, splitDollar_step _ _ _ hd]
  rw [show (1 : Nat) = 0 + 1 from rfl, splitDollar_step _ _ _ hs]
  rfl

/-! ## PBKDF2 output shape lemmas -/

theorem wordBytes_lt (w : Nat) : ∀ b ∈ wordBytes w, b < 256 := by
  intro b hb
  simp only [wordBytes, List.mem_cons, List.not_mem_nil, or_false] at hb
  rcases hb with h | h | h | h <;> omega

theorem sha256_length (m : List Nat) : (sha256 m).length = 32 := by
  simp [sha256, wordBytes]

theorem sha256_lt (m : List Nat) : ∀ b ∈ sha256 m, b < 256 := by
  intro b hb
  simp only [sha256, List.mem_append] at hb
  rcases hb with ((((((h | h) | h) | h) | h) | h) | h) | h <;>
    exact wordBytes_lt _ b h

theorem hmacSha256_length (k m : List Nat) : (hmacSha256 k m).length = 32 := by
  rw [hmacSha256]
  exact sha256_length _

theorem hmacSha256_lt (k m : List Nat) : ∀ b ∈ hmacSha256 k m, b < 256 := by
  rw [hmacSha256]
  exact sha256_lt _

theorem pbkdf2Go_length (pw : List Nat) :
    ∀ k u acc, acc.length = 32 → (pbkdf2Go pw k u acc).length = 32 := by
  intro k
  induction k with
  | zero => intro u acc h; exact h
  | succ k ih =>
      intro u acc h
      rw [pbkdf2Go]
      apply ih
      rw [List.length_zipWith, h, hmacSha256_length]
      omega

theorem zipWith_xor_lt (a u : List Nat) (ha : ∀ b ∈ a, b < 256)
    (hu : ∀ b ∈ u, b < 256) : ∀ b ∈ List.zipWith Nat.xor a u, b < 256 := by
  induction a generalizing u with
  | nil => intro b hb; simp at hb
  | cons x a' ih =>
      cases u with
      | nil => intro b hb; simp at hb
      | cons y u' =>
          intro b hb
          simp only [List.zipWith_cons_cons, List.mem_cons] at hb
          rcases hb with h | h
          · subst h
            have hx : x < 2 ^ 8 := ha x (by simp)
            have hy : y < 2 ^ 8 := hu y (by simp)
            exact Nat.xor_lt_two_pow hx hy
          · exact ih u' (fun b hb => ha b (by simp [hb]))
              (fun b hb => hu b (by simp [hb])) b h

theorem pbkdf2Go_lt (pw : List Nat) :
    ∀ k u acc, (∀ b ∈ acc, b < 256) → ∀ b ∈ pbkdf2Go pw k u acc, b < 256 := by
  intro k
  induction k with
  | zero => intro u acc h; exact h
  | succ k ih =>
      intro u acc h
      rw [pbkdf2Go]
      exact ih _ _ (zipWith_xor_lt _ _ h (hmacSha256_lt _ _))

theorem pbkdf2Block_length (pw salt : List Nat) (iters i : Nat) :
    (pbkdf2Block pw salt iters i).length = 32 := by
  rw [pbkdf2Block]
  exact pbkdf2Go_length pw _ _ _ (hmacSha256_length _ _)

theorem pbkdf2Block_lt (pw salt : List Nat) (iters i : Nat) :
    ∀ b ∈ pbkdf2Block pw salt iters i, b < 256 := by
  rw [pbkdf2Block]
  exact pbkdf2Go_lt pw _ _ _ (hmacSha256_lt _ _)

theorem pbkdf2_blocks_length (pw salt : List Nat) (iters : Nat) (l : List Nat) :
    ((l.map fun j => pbkdf2Block pw salt iters (j + 1)).flatten).length =
      32 * l.length := by
  induction l with
  | nil => rfl
  | cons j l' ih =>
      simp only [List.map_cons, List.flatten_cons, List.length_append, ih,
        pbkdf2Block_length, List.length_cons]
      ring

theorem pbkdf2Core_length (pw salt : List Nat) (iters dklen : Nat) :
    (pbkdf2Core pw salt iters dklen).length = dklen := by
  rw [pbkdf2Core, List.length_take, pbkdf2_blocks_length, List.length_range]
  omega

theorem pbkdf2Core_lt (pw salt : List Nat) (iters dklen : Nat) :
    ∀ b ∈ pbkdf2Core pw salt iters dklen, b < 256 := by
  intro b hb
  rw [pbkdf2Core] at hb
  have hb2 := List.take_subset _ _ hb
  obtain ⟨l, hl, hbl⟩ := List.mem_flatten.mp hb2
  obtain ⟨j, _, hj⟩ := List.mem_map.mp hl
  subst hj
  exact pbkdf2Block_lt _ _ _ _ b hbl

/-! ## Hash/verify round-trip -/

/-- The stored string `hash_api_key` builds for plaintext `P`, iteration count
`I` and salt draw `salt`. -/
def storedOf (P : List Char) (I : Int) (salt : List Nat) : List Char :=
  "pbkdf2_sha256".toList ++ '$' :: intToString I ++
    '$' :: pyB64 salt ++ '$' :: pyB64 (pbkdf2Core (utf8Encode P) salt I.toNat 32)

theorem hash_api_key_ok (P : List Char) (I : Int) (salt : List Nat)
    (hI : 1 ≤ I) :
    hash_api_key P I "pbkdf2".toList salt = .ok (storedOf P I salt) := by
  rw [hash_api_key, if_neg (by simp), pbkdf2HmacSha256,
      if_neg (by omega : ¬ I < 1), if_neg (by decide : ¬ PBKDF2_DKLEN < 1)]
  rfl

theorem verify_api_key_hash (P : List Char) (I : Int) (salt : List Nat)
    (hI : 1 ≤ I) (hsalt : ∀ b ∈ salt, b < 256) :
    verify_api_key P (storedOf P I salt) = .ok true := by
  have hIpos : (0 : Int) ≤ I := by omega
  have hdkLt : ∀ b ∈ pbkdf2Core (utf8Encode P) salt I.toNat 32, b < 256 :=
    pbkdf2Core_lt _ _ _ _
  have htag : ¬ '$' ∈ "pbkdf2_sha256".toList := by decide
  have hdigits : ¬ '$' ∈ intToString I := by
    rw [intToString, if_neg (by omega)]
    intro hm
    exact isDigit_ne_dollar (natDigits_all_digits _ '$' hm) rfl
  have hcond : ¬ (storedOf P I salt = [] ∨ ¬ '$' ∈ storedOf P I salt) := by
    push_neg
    constructor
    · simp [storedOf]
    · simp [storedOf]
  simp only [verify_api_key]
  rw [if_neg hcond]
  simp only [storedOf, List.append_assoc, List.cons_append]
  rw [splitDollar_four _ _ _ _ htag hdigits (pyB64_no_dollar salt hsalt)]
  simp only []
  rw [if_neg (by simp)]
  rw [pyParseInt_intToString I hIpos]
  simp only []
  rw [pyUnb64_pyB64 salt hsalt]
  simp only []
  rw [pyUnb64_pyB64 _ hdkLt]
  simp only []
  rw [pbkdf2Core_length]
  rw [pbkdf2HmacSha256, if_neg (by omega : ¬ I < 1),
      if_neg (by decide : ¬ (32 : Nat) < 1)]
  simp only []
  simp [compare_digest]

/-! ## Claim theorems -/

/-- C1: the claim says `verify_api_key` returns `false` and never throws for
every malformed stored string, including one whose iteration field is a
negative integer.  At the concrete input
`verify_api_key("x", "pbkdf2_sha256$-1$AA$AA")` the code instead raises
`ValueError`: the field `-1` parses successfully, and `hashlib.pbkdf2_hmac` —
called outside the `try` block — rejects iteration counts below 1. -/
theorem C1_negative_iterations_raise :
    verify_api_key "x".toList "pbkdf2_sha256$-1$AA$AA".toList =
      .error .valueError := by
  rfl

/-- C2: for every plaintext `P`, every iteration count the hasher accepts
(`hash_api_key` raises for `I < 1`), and every draw of
`secrets.token_bytes(16)`, verifying `P` against `hash_api_key(P, I)`
succeeds. -/
theorem C2_verify_of_hash (P : List Char) (I : Int) (salt : List Nat)
    (hI : 1 ≤ I) (_hlen : salt.length = 16) (hsalt : ∀ b ∈ salt, b < 256) :
    (hash_api_key P I "pbkdf2".toList salt).bind (verify_api_key P) =
      .ok true := by
  rw [hash_api_key_ok P I salt hI]
  simpa [Except.bind] using verify_api_key_hash P I salt hI hsalt

theorem C2_verify_of_hash_witness :
    (hash_api_key "sk_w".toList 1 "pbkdf2".toList (List.replicate 16 0)).bind
      (verify_api_key "sk_w".toList) = .ok true :=
  C2_verify_of_hash "sk_w".toList 1 (List.replicate 16 0) (by decide)
    (by decide) (by decide)

/-- C5: when the process-wide `DB_AVAILABLE` flag is cleared, every non-exempt
request receives a 503 response with error `service_unavailable`; the store is
universally quantified and never consulted, and the outcome is the same
whatever credential headers the request carries. -/
theorem C5_store_unavailable (req : Request) (store : Store)
    (hpath : req.path ≠ "/health".toList)
    (hmethod : req.method ≠ "OPTIONS".toList) :
    require_api_key req false store =
      .response 503 "service_unavailable".toList := by
  rw [require_api_key, if_neg (not_or.mpr ⟨hpath, hmethod⟩), if_pos rfl]

theorem C5_store_unavailable_witness :
    require_api_key
      ⟨"/users".toList, "GET".toList, some "sk_w".toList, some "k1".toList⟩
      false ⟨[⟨"k1".toList, "h".toList, true⟩], true⟩ =
      .response 503 "service_unavailable".toList :=
  C5_store_unavailable _ _ (by decide) (by decide)

theorem intToString_no_dollar (I : Int) (h : 0 ≤ I) :
    ¬ '$' ∈ intToString I := by
  rw [intToString, if_neg (by omega)]
  intro hm
  exact isDigit_ne_dollar (natDigits_all_digits _ '$' hm) rfl

/-- C6: for every plaintext, accepted iteration count and 16-byte salt draw,
`hash_api_key` returns the `$`-delimited string
`pbkdf2_sha256$<iterations>$<base64 salt>$<base64 derived key>`; splitting on
`$` yields exactly those four fields, the derived key is the 32-byte
PBKDF2-HMAC-SHA-256 output, and both base64 fields are the URL-safe unpadded
encoding (no `=` padding remains). -/
theorem C6_hash_format (P : List Char) (I : Int) (salt : List Nat)
    (hI : 1 ≤ I) (_hlen : salt.length = 16) (hsalt : ∀ b ∈ salt, b < 256) :
    hash_api_key P I "pbkdf2".toList salt =
      .ok ("pbkdf2_sha256".toList ++ '$' :: intToString I ++
        '$' :: pyB64 salt ++
        '$' :: pyB64 (pbkdf2Core (utf8Encode P) salt I.toNat 32)) ∧
    splitDollar 3 (storedOf P I salt) =
      ["pbkdf2_sha256".toList, intToString I, pyB64 salt,
       pyB64 (pbkdf2Core (utf8Encode P) salt I.toNat 32)] ∧
    (pbkdf2Core (utf8Encode P) salt I.toNat 32).length = 32 ∧
    ¬ '=' ∈ pyB64 salt ∧
    ¬ '=' ∈ pyB64 (pbkdf2Core (utf8Encode P) salt I.toNat 32) := by
  refine ⟨hash_api_key_ok P I salt hI, ?_, pbkdf2Core_length _ _ _ _,
    pyB64_no_eqChar salt hsalt, pyB64_no_eqChar _ (pbkdf2Core_lt _ _ _ _)⟩
  simp only [storedOf, List.append_assoc, List.cons_append]
  exact splitDollar_four _ _ _ _ (by decide)
    (intToString_no_dollar I (by omega)) (pyB64_no_dollar salt hsalt)

theorem C6_hash_format_witness :
    (splitDollar 3 (storedOf "sk_w".toList 1 (List.replicate 16 0))).length =
      4 := by
  have h := C6_hash_format "sk_w".toList 1 (List.replicate 16 0) (by decide)
    (by decide) (by decide)
  rw [h.2.1]
  rfl

/-- Does an `admit` outcome bind an id that an *active* record of the store
holds?  Every non-admit outcome satisfies this vacuously. -/
def grantedRecordActive (store : Store) : Outcome → Bool
  | .grant rid => store.rows.any fun r => r.id == rid && r.active
  | _ => true

theorem scanRows_active (provided : List Char) (c : Bool) (store : Store) :
    ∀ l : List APIKeyRow, (∀ r ∈ l, r ∈ store.rows ∧ r.active = true) →
      grantedRecordActive store (scanRows provided c l) = true := by
  intro l
  induction l with
  | nil => intro _; rfl
  | cons r rest ih =>
      intro hsub
      cases hv : verify_api_key provided r.hash with
      | error e =>
          simp only [scanRows, hv]
          exact ih fun x hx => hsub x (List.mem_cons_of_mem _ hx)
      | ok b =>
          cases b with
          | false =>
              simp only [scanRows, hv]
              exact ih fun x hx => hsub x (List.mem_cons_of_mem _ hx)
          | true =>
              simp only [scanRows, hv]
              cases c with
              | false =>
                  simp only [Bool.false_eq_true, if_false]
                  exact ih fun x hx => hsub x (List.mem_cons_of_mem _ hx)
              | true =>
                  simp only [if_true]
                  obtain ⟨hmem, hact⟩ := hsub r (List.mem_cons_self _ _)
                  simp only [grantedRecordActive, List.any_eq_true]
                  exact ⟨r, hmem, by simp [hact]⟩

/-- C4: any admitted request was admitted on the strength of an *active*
record: the bound id belongs to a record of the store with `active = true`.
Consequently a record with `active = false` never authenticates a request,
in the id-hinted path or in the scan path, however the hashes compare. -/
theorem C4_grant_only_active (req : Request) (dbAvailable : Bool)
    (store : Store) :
    grantedRecordActive store (require_api_key req dbAvailable store) =
      true := by
  rw [require_api_key]
  split
  · rfl
  split
  · rfl
  split
  · rfl
  next provided hk =>
    split
    next kid hkid =>
      split
      · rfl
      next row hf =>
        have hrow : row ∈ store.rows.filter (fun r => r.id == kid && r.active) := by
          rw [hf]
          exact List.mem_cons_self _ _
        obtain ⟨hmem, hprop⟩ := List.mem_filter.mp hrow
        have hprop2 : (row.id == kid) = true ∧ row.active = true := by
          simpa using hprop
        split
        · rfl
        · split
          next hcommit =>
              simp only [grantedRecordActive, List.any_eq_true]
              exact ⟨row, hmem, by simp [hprop2.2]⟩
          next hcommit => rfl
        · rfl
      next x h1 h2 => rfl
    next hkid =>
      apply scanRows_active
      intro r hr
      obtain ⟨hmem, hprop⟩ := List.mem_filter.mp hr
      exact ⟨hmem, by simpa using hprop⟩

theorem growToken_of_le (target : Nat) (d : Nat → List Char) (fuel draw : Nat)
    (tok : List Char) (h : target ≤ tok.length) :
    growToken target d fuel draw tok = tok := by
  cases fuel with
  | zero => rfl
  | succ f => rw [growToken, if_neg (by omega)]

theorem tokenUrlsafeLen_ge (L : Nat) :
    L ≤ tokenUrlsafeLen ((3 * L + 3) / 4) := by
  unfold tokenUrlsafeLen
  omega

/-- C7: with draws of the real `secrets.token_urlsafe` length,
`generate_api_key` fails with `ValueError` exactly for `length < 8`, and for
`length ≥ 8` returns the fixed prefix `sk_` followed by a token of at least
`length` characters. -/
theorem C7_generate_spec (length : Int) (draws : Nat → Nat → List Char)
    (hdraws : ∀ n i, (draws n i).length = tokenUrlsafeLen n) :
    (length < 8 → generate_api_key length draws = .error .valueError) ∧
    (8 ≤ length → ∃ token,
      generate_api_key length draws = .ok ("sk_".toList ++ token) ∧
      length ≤ (token.length : Int)) := by
  constructor
  · intro h
    rw [generate_api_key, if_pos h]
  · intro h
    have hfirst : length.toNat ≤
        (draws ((3 * length.toNat + 3) / 4) 0).length := by
      rw [hdraws]
      exact tokenUrlsafeLen_ge _
    refine ⟨(draws ((3 * length.toNat + 3) / 4) 0).take length.toNat, ?_, ?_⟩
    · rw [generate_api_key, if_neg (by omega)]
      simp only []
      rw [growToken_of_le _ _ _ _ _ hfirst]
    · rw [List.length_take]
      omega

theorem C7_generate_spec_witness :
    generate_api_key 7 (fun n _ => List.replicate (tokenUrlsafeLen n) 'A') =
      .error .valueError :=
  (C7_generate_spec 7 _ fun n i => List.length_replicate _ _).1 (by decide)

/-- C10: for `length ≥ 8` the token following the `sk_` prefix has *exactly*
`length` characters: the concatenated random material is truncated to
`length`. -/
theorem C10_generate_exact (length : Int) (draws : Nat → Nat → List Char)
    (hdraws : ∀ n i, (draws n i).length = tokenUrlsafeLen n)
    (h : 8 ≤ length) :
    ∃ token, generate_api_key length draws = .ok ("sk_".toList ++ token) ∧
      (token.length : Int) = length := by
  have hfirst : length.toNat ≤
      (draws ((3 * length.toNat + 3) / 4) 0).length := by
    rw [hdraws]
    exact tokenUrlsafeLen_ge _
  refine ⟨(draws ((3 * length.toNat + 3) / 4) 0).take length.toNat, ?_, ?_⟩
  · rw [generate_api_key, if_neg (by omega)]
    simp only []
    rw [growToken_of_le _ _ _ _ _ hfirst]
  · rw [List.length_take]
    omega

theorem C10_generate_exact_witness :
    (generate_api_key 8 (fun n _ => List.replicate (tokenUrlsafeLen n) 'A')).map
      (fun s => s.length) = .ok 11 := by
  obtain ⟨tok, heq, hlen⟩ :=
    C10_generate_exact 8 _ (fun n i => List.length_replicate _ _) (by decide)
  rw [heq]
  simp only [Except.map, List.length_append]
  have : tok.length = 8 := by omega
  rw [this]
  rfl

/-- Does `needle` occur as a contiguous substring of `hay` (Python `in`)? -/
def strContains : List Char → List Char → Bool
  | [], needle => needle.isEmpty
  | c :: t, needle => needle.isPrefixOf (c :: t) || strContains t needle

/-- C8 counterexample: at plaintext `P = "p"`, one iteration and a fixed
`token_bytes` draw, the stored string returned by `hash_api_key` *does*
contain `P` as a substring — its algorithm tag begins with `p` — so the
claimed "never equals `P` and never contains `P`" fails at this input. -/
theorem C8_counterexample :
    (hash_api_key "p".toList 1 "pbkdf2".toList (List.replicate 16 0)).map
      (fun st => strContains st "p".toList) = .ok true := by
  rw [hash_api_key_ok _ _ _ (by decide)]
  simp only [Except.map, storedOf]
  rw [show ("p".toList : List Char) = ['p'] from rfl,
      show ("pbkdf2_sha256".toList : List Char) =
        'p' :: "bkdf2_sha256".toList from rfl]
  simp [strContains, List.isPrefixOf, List.cons_append]

/-- C8 amended: the stored string always begins with the algorithm tag
`pbkdf2_sha256$`, so it never *equals* a plaintext that does not itself begin
with that tag — in particular never a generated key, which begins with `sk_`.
The containment half of the original claim is dropped: the stored form can
contain the plaintext as a substring (see the counterexample at `P = "p"`). -/
theorem C8_stored_ne_plaintext (P : List Char) (I : Int) (method : List Char)
    (salt : List Nat)
    (hP : ("pbkdf2_sha256$".toList).isPrefixOf P = false) :
    hash_api_key P I method salt ≠ .ok P := by
  intro he
  rw [hash_api_key] at he
  by_cases hm : method ≠ "pbkdf2".toList
  · rw [if_pos hm] at he
    exact Except.noConfusion he
  · rw [if_neg hm] at he
    cases hpb : pbkdf2HmacSha256 (utf8Encode P) salt I PBKDF2_DKLEN with
    | error e =>
        rw [hpb] at he
        exact Except.noConfusion he
    | ok dk =>
        rw [hpb] at he
        simp only [Except.ok.injEq] at he
        rw [← he] at hP
        have htrue : ("pbkdf2_sha256$".toList).isPrefixOf
            ("pbkdf2_sha256".toList ++ '$' :: intToString I ++
              '$' :: pyB64 salt ++ '$' :: pyB64 dk) = true := by
          rw [List.isPrefixOf_iff_prefix]
          refine ⟨intToString I ++ '$' :: pyB64 salt ++ '$' :: pyB64 dk, ?_⟩
          rw [show ("pbkdf2_sha256$".toList : List Char) =
                "pbkdf2_sha256".toList ++ ['$'] from rfl]
          simp [List.append_assoc]
        rw [htrue] at hP
        exact Bool.noConfusion hP

theorem C8_stored_ne_plaintext_witness :
    hash_api_key "p".toList 1 "pbkdf2".toList (List.replicate 16 0) ≠
      .ok "p".toList :=
  C8_stored_ne_plaintext "p".toList 1 "pbkdf2".toList (List.replicate 16 0)
    (by decide)

/-- C3 (code behaviour at the failing input): one active record whose hash
matches the presented `X-API-Key`, no `X-API-Key-Id` hint, and a
`session.commit()` that raises while updating `last_used_at`.  The claim says
the request is still admitted; the code's `except Exception: continue` moves
past the record and falls through to 401 unauthorized.  (In the id-hinted
path the same failure propagates as an exception instead.) -/
theorem C3_commit_failure_rejects :
    (hash_api_key ['s','k','1'] 1 "pbkdf2".toList (List.replicate 16 0)).map
      (fun st => require_api_key
        ⟨['/','a'], ['G','E','T'], some ['s','k','1'], none⟩ true
        ⟨[⟨['k','1'], st, true⟩], false⟩) =
      .ok (.response 401 "unauthorized".toList) := by
  rw [hash_api_key_ok _ _ _ (by decide)]
  have hv := verify_api_key_hash ['s','k','1'] 1 (List.replicate 16 0)
    (by decide) (by decide)
  simp only [Except.map]
  rw [require_api_key, if_neg (by decide), if_neg (by decide)]
  simp only [truthyHeader, List.filter, scanRows, hv]
  rfl
